import Mathlib

/-!
Verification of the output-extraction and response-formatting pipeline of the
rustbot repository (`src/playground.rs`).  Text is modelled as `List Char`;
byte indices of the Rust `str` slicing become character indices.  Each Rust
function used by the claims is translated into a Lean definition of the same
name; library primitives of Rust (`str::rfind`, `str::find`, `str::lines`,
`str::trim`, `str::match_indices`, `Iterator::max`/`min`) are modelled by
small executable helpers whose semantics match their documented contracts.
-/

/-- Occurrence of token `t` in `s` starting at index `i` (Prop form). -/
def OccursAt (t s : List Char) (i : Nat) : Prop :=
  i + t.length ≤ s.length ∧ t <+: s.drop i

/-- Occurrence of token `t` in `s` starting at index `i` (Bool form). -/
def occursAtB (t s : List Char) (i : Nat) : Bool :=
  decide (i + t.length ≤ s.length) && t.isPrefixOf (s.drop i)

theorem occursAtB_eq_true_iff {t s : List Char} {i : Nat} :
    occursAtB t s i = true ↔ OccursAt t s i := by
  simp [occursAtB, OccursAt, List.isPrefixOf_iff_prefix]

instance (t s : List Char) (i : Nat) : Decidable (OccursAt t s i) :=
  decidable_of_iff (occursAtB t s i = true) occursAtB_eq_true_iff

/-- Downward scan used to model `str::rfind`: the largest `p ≤ i` at which
`t` occurs in `s`, if any. -/
def rfindDown (t s : List Char) : Nat → Option Nat
  | 0 => if occursAtB t s 0 then some 0 else none
  | i + 1 => if occursAtB t s (i + 1) then some (i + 1) else rfindDown t s i

/-- Model of Rust `str::rfind` for a substring pattern: start index of the
last occurrence of `t` in `s`. -/
def rfindTok (s t : List Char) : Option Nat :=
  rfindDown t s s.length

/-- Model of `Iterator::max` on a list of naturals. -/
def maxNat? : List Nat → Option Nat
  | [] => none
  | x :: xs =>
    match maxNat? xs with
    | none => some x
    | some m => some (max x m)

/-- Model of `Iterator::min` on a list of naturals. -/
def minNat? : List Nat → Option Nat
  | [] => none
  | x :: xs =>
    match minNat? xs with
    | none => some x
    | some m => some (min x m)

/-- Model of Rust `str::find(char)`: index of the first occurrence of the
character `c`. -/
def firstIdxOf (c : Char) : List Char → Option Nat
  | [] => none
  | d :: s => if d = c then some 0 else (firstIdxOf c s).map (· + 1)

/-- Model of Rust `str::rfind(char)`: index of the last occurrence of the
character `c`. -/
def lastIdxOf (c : Char) : List Char → Option Nat
  | [] => none
  | d :: s =>
    match lastIdxOf c s with
    | some i => some (i + 1)
    | none => if d = c then some 0 else none

/-- Keep only the part of `s` strictly after the first newline at or after
index `p` (`playground.rs` lines 261-264): the slice after the line in
which position `p` lies, or nothing when no newline follows `p`. -/
def dropLineAt (s : List Char) (p : Nat) : List Char :=
  match firstIdxOf '\n' (s.drop p) with
  | some lineEnd => s.drop (lineEnd + p + 1)
  | none => []

/-- Keep only the part of `s` up to and including the last newline before
index `p` (`playground.rs` lines 274-277): the slice before the line in
which position `p` lies, or nothing when no newline precedes `p`. -/
def takeBeforeLineAt (s : List Char) (p : Nat) : List Char :=
  match lastIdxOf '\n' (s.take p) with
  | some prevLineEnd => s.take (prevLineEnd + 1)
  | none => []

/-- Front truncation step of `extract_relevant_lines` (`playground.rs`
lines 255-265): find the best matching start token and keep only the lines
after the line in which it starts. -/
def truncFront (startTokens : List (List Char)) (s : List Char) : List Char :=
  match maxNat? (startTokens.filterMap (fun t => rfindTok s t)) with
  | none => s
  | some p => dropLineAt s p

/-- Back truncation step of `extract_relevant_lines` (`playground.rs`
lines 268-278): find the best matching end token and keep only the lines
before the line in which it starts. -/
def truncBack (endTokens : List (List Char)) (s : List Char) : List Char :=
  match minNat? (endTokens.filterMap (fun t => rfindTok s t)) with
  | none => s
  | some p => takeBeforeLineAt s p

/-- Fuel-indexed form of the cleanup loop of `extract_relevant_lines`
(lines 282-284): while the string ends in two newlines, drop the last
character.  Each iteration shortens the string, so `s.length` fuel is
enough to run the loop to completion. -/
def collapseGo : Nat → List Char → List Char
  | 0, s => s
  | n + 1, s =>
    if ['\n', '\n'].isSuffixOf s then collapseGo n s.dropLast else s

/-- Final cleanup loop of `extract_relevant_lines` (lines 282-284). -/
def collapseTrailingBlank (s : List Char) : List Char :=
  collapseGo s.length s

/-- Model of `extract_relevant_lines` (`playground.rs` lines 249-287). -/
def extract_relevant_lines (stderr : List Char)
    (strip_start_tokens strip_end_tokens : List (List Char)) : List Char :=
  collapseTrailingBlank
    ((truncBack strip_end_tokens (truncFront strip_start_tokens stderr)).dropWhile
      (· = '\n'))

example : extract_relevant_lines "tok a\ntok b\nc".toList ["tok".toList] [] = "c".toList := by
  decide

/-!
Specification-side reading of the two truncation steps of the line
extractor (spec.md §4.1), phrased over the line structure of the text:
the text is split into its newline-separated lines, the line containing
the chosen occurrence is located by counting newlines before the
occurrence's start index, and whole lines are then dropped or kept.
-/

/-- Split a text into its newline-separated segments (every text has one
more segment than it has newlines). -/
def splitNl : List Char → List (List Char)
  | [] => [[]]
  | c :: s =>
    if c = '\n' then [] :: splitNl s
    else
      match splitNl s with
      | p :: ps => (c :: p) :: ps
      | [] => [[c]]

/-- Join newline-separated segments back into a text. -/
def joinNl : List (List Char) → List Char
  | [] => []
  | [l] => l
  | l :: ls => l ++ '\n' :: joinNl ls

/-- Spec reading of "truncate everything up to and including that
occurrence's line": the line containing position `p` is found by counting
the newlines before `p`; that line and all lines before it are removed and
the remaining lines rejoined. -/
def specDropLineAt (s : List Char) (p : Nat) : List Char :=
  joinNl ((splitNl s).drop ((s.take p).count '\n' + 1))

/-- Spec reading of "truncate everything from the start of that occurrence's
line onward": keep, each with its terminating newline, exactly the lines
strictly before the line containing position `p`. -/
def specTakeBeforeLineAt (s : List Char) (p : Nat) : List Char :=
  (((splitNl s).take ((s.take p).count '\n')).map (fun l => l ++ ['\n'])).flatten

/-- Spec reading of the front truncation (spec.md §4.1): among all start
tokens that occur in the text, pick the one whose last occurrence has the
largest start index; if none occur, skip front-truncation; otherwise remove
every line up to and including the line in which that occurrence starts. -/
def specTruncFront (startTokens : List (List Char)) (s : List Char) : List Char :=
  match maxNat? (startTokens.filterMap (fun t => rfindTok s t)) with
  | none => s
  | some p => specDropLineAt s p

/-- Spec reading of the back truncation (spec.md §4.1): among all end
tokens that occur in the remaining text, pick the one whose last occurrence
has the smallest start index; if none occur, skip back-truncation; otherwise
keep, with their terminators, exactly the lines before the line in which
that occurrence starts. -/
def specTruncBack (endTokens : List (List Char)) (s : List Char) : List Char :=
  match minNat? (endTokens.filterMap (fun t => rfindTok s t)) with
  | none => s
  | some p => specTakeBeforeLineAt s p

/-- Model of Rust `str::trim`: remove leading and trailing whitespace. -/
def trimChars (l : List Char) : List Char :=
  ((l.dropWhile Char.isWhitespace).reverse.dropWhile Char.isWhitespace).reverse

/-- Model of the carriage-return stripping done per line by Rust
`str::lines`: remove one trailing CR if present. -/
def stripCR (l : List Char) : List Char :=
  if l.getLast? = some '\r' then l.dropLast else l

/-- Model of Rust `str::lines`: newline-separated lines, without a final
empty segment, each stripped of one trailing carriage return. -/
def rustLines (s : List Char) : List (List Char) :=
  (match (splitNl s).getLast? with
    | some [] => (splitNl s).dropLast
    | _ => splitNl s).map stripCR

/-- Model of Rust `str::contains` for a substring pattern. -/
def containsSub (s t : List Char) : Bool :=
  (rfindTok s t).isSome

example : rustLines "a\r\n\nbc\n".toList = ["a".toList, [], "bc".toList] := by decide
example : rustLines [] = [] := by decide
example : containsSub "abcd".toList "bc".toList = true := by decide
example : containsSub "abcd".toList "ca".toList = false := by decide

/-- Result handling policy of the code wrapper (`playground.rs` lines
289-296). -/
inductive ResultHandling
  | None
  | Discard
  | Print
deriving DecidableEq

/-- The `fn main` boilerplate header pushed by `maybe_wrap` (lines
326-330). -/
def headerStr (rh : ResultHandling) : List Char :=
  match rh with
  | ResultHandling.None => "fn main() \x7b\n".toList
  | ResultHandling.Discard => "fn main() \x7b let _ = \x7b\n".toList
  | ResultHandling.Print => "fn main() \x7b println!(\"\x7b:?\x7d\", \x7b\n".toList

/-- The closing boilerplate pushed by `maybe_wrap` (lines 339-343). -/
def footerStr (rh : ResultHandling) : List Char :=
  match rh with
  | ResultHandling.None => "\x7d".toList
  | ResultHandling.Discard => "\x7d; \x7d".toList
  | ResultHandling.Print => "\x7d); \x7d".toList

/-- The leading-line scan of `maybe_wrap` (lines 312-323): walk the lines;
a line whose trimmed form starts with `#![` contributes its trimmed form to
the hoisted attributes, a line that trims to nothing is skipped, and the
first other line stops the scan.  Returns the hoisted attribute lines and
the unconsumed remaining lines. -/
def collectAttrs : List (List Char) → (List (List Char) × List (List Char))
  | [] => ([], [])
  | l :: ls =>
    let t := trimChars l
    if "#![".toList.isPrefixOf t then
      let r := collectAttrs ls
      (t :: r.1, r.2)
    else if t = [] then collectAttrs ls
    else ([], l :: ls)

/-- Model of `maybe_wrap` (`playground.rs` lines 300-346).  The returned
Bool models the `Cow::Owned` case: `true` means a wrap was performed. -/
def maybe_wrap (code : List Char) (result_handling : ResultHandling) :
    List Char × Bool :=
  if containsSub code "fn main".toList then (code, false)
  else
    let ar := collectAttrs (rustLines code)
    ((ar.1.map (fun l => l ++ ['\n'])).flatten ++ headerStr result_handling ++
        (ar.2.map (fun l => l ++ ['\n'])).flatten ++ footerStr result_handling,
      true)

example :
    (maybe_wrap "#![feature(a)]\n\nuse x;\n1 + 1".toList ResultHandling.Discard).1 =
      "#![feature(a)]\nfn main() \x7b let _ = \x7b\nuse x;\n1 + 1\n\x7d; \x7d".toList := by
  decide

example : maybe_wrap "fn main() \x7b\x7d".toList ResultHandling.Discard =
    ("fn main() \x7b\x7d".toList, false) := by decide

/-- Model of `strip_fn_main_boilerplate_from_formatted` (`playground.rs`
lines 411-419): extract the lines between the `fn main() {` header and the
last closing brace line, and remove one four-space indent per line. -/
def strip_fn_main_boilerplate_from_formatted (text : List Char) : List Char :=
  ((rustLines (extract_relevant_lines text ["fn main() \x7b".toList] ["\x7d".toList])).map
      (fun line =>
        (if "    ".toList.isPrefixOf line then line.drop 4 else line) ++ ['\n'])).flatten

example :
    strip_fn_main_boilerplate_from_formatted
        "fn main() \x7b\n    1 + 1\n\x7d".toList = "1 + 1\n".toList := by
  decide

/-- Release channel (`playground.rs` lines 42-48). -/
inductive Channel
  | Stable
  | Beta
  | Nightly
deriving DecidableEq

/-- Compilation mode (lines 91-96). -/
inductive Mode
  | Debug
  | Release
deriving DecidableEq

/-- Language edition (lines 63-69). -/
inductive Edition
  | E2015
  | E2018
deriving DecidableEq

/-- Model of `FromStr for Channel` (lines 50-61). -/
def channelFromStr (s : List Char) : Except (List Char) Channel :=
  if s = "stable".toList then Except.ok Channel.Stable
  else if s = "beta".toList then Except.ok Channel.Beta
  else if s = "nightly".toList then Except.ok Channel.Nightly
  else Except.error ("invalid release channel `".toList ++ s ++ ['`'])

/-- Model of `FromStr for Edition` (lines 71-81). -/
def editionFromStr (s : List Char) : Except (List Char) Edition :=
  if s = "2015".toList then Except.ok Edition.E2015
  else if s = "2018".toList then Except.ok Edition.E2018
  else Except.error ("invalid edition `".toList ++ s ++ ['`'])

/-- Model of `FromStr for Mode` (lines 98-108). -/
def modeFromStr (s : List Char) : Except (List Char) Mode :=
  if s = "debug".toList then Except.ok Mode.Debug
  else if s = "release".toList then Except.ok Mode.Release
  else Except.error ("invalid compilation mode `".toList ++ s ++ ['`'])

/-- Flags shared by the playground commands (lines 171-175). -/
structure CommandFlags where
  channel : Channel
  mode : Mode
  edition : Edition
deriving DecidableEq

/-- Model of `parse_flags` (`playground.rs` lines 179-210).  The `args.params`
map is modelled as an association list; each recognized key, when present,
overrides its default on a successful parse and otherwise appends its error
message plus a newline to the diagnostics. -/
def parse_flags (params : List (List Char × List Char)) :
    CommandFlags × List Char :=
  let ch : Channel × List Char :=
    match params.lookup "channel".toList with
    | some v =>
      match channelFromStr v with
      | Except.ok c => (c, [])
      | Except.error e => (Channel.Nightly, e ++ ['\n'])
    | none => (Channel.Nightly, [])
  let mo : Mode × List Char :=
    match params.lookup "mode".toList with
    | some v =>
      match modeFromStr v with
      | Except.ok m => (m, [])
      | Except.error e => (Mode.Debug, e ++ ['\n'])
    | none => (Mode.Debug, [])
  let ed : Edition × List Char :=
    match params.lookup "edition".toList with
    | some v =>
      match editionFromStr v with
      | Except.ok e => (e, [])
      | Except.error e => (Edition.E2018, e ++ ['\n'])
    | none => (Edition.E2018, [])
  (⟨ch.1, mo.1, ed.1⟩, ch.2 ++ mo.2 ++ ed.2)

example : parse_flags [] = (⟨Channel.Nightly, Mode.Debug, Edition.E2018⟩, []) := by
  decide

/-- Result decoded from the execution service (`playground.rs` lines
110-115). -/
structure PlayResult where
  success : Bool
  stdout : List Char
  stderr : List Char
deriving DecidableEq

/-- Body composition at the top of `send_reply` (lines 356-362): stderr on
failure, else stdout when stderr is empty, else stderr then stdout. -/
def composeBody (result : PlayResult) : List Char :=
  if !result.success then result.stderr
  else if result.stderr = [] then result.stdout
  else result.stderr ++ '\n' :: result.stdout

/-- Model of `url_from_gist` (`playground.rs` lines 136-154). -/
def url_from_gist (flags : CommandFlags) (gist_id : List Char) : List Char :=
  "https://play.rust-lang.org/?version=".toList ++
    (match flags.channel with
      | Channel.Nightly => "nightly".toList
      | Channel.Beta => "beta".toList
      | Channel.Stable => "stable".toList) ++
    "&mode=".toList ++
    (match flags.mode with
      | Mode.Debug => "debug".toList
      | Mode.Release => "release".toList) ++
    "&edition=".toList ++
    (match flags.edition with
      | Edition.E2015 => "2015".toList
      | Edition.E2018 => "2018".toList) ++
    "&gist=".toList ++ gist_id

/-- Modelled from the spec: `reply_potentially_long_text` lives in the
repository's main module, which is not among the provided sources.  Per
spec.md §4.5 and §6, the reply is sent as a single message when `text`
plus its closing `suffix` fits the platform's size limit, and otherwise a
truncated prefix of `text` followed by the `suffix` and the `alternative`
notice is sent in its place. -/
def reply_potentially_long_text (limit : Nat) (text suffix alternative : List Char) :
    List Char :=
  if text.length + suffix.length ≤ limit then text ++ suffix
  else text.take (limit - suffix.length - alternative.length) ++ suffix ++ alternative

/-- Observable outcome of sending a reply: the message posted to the chat
platform, and the list of payloads uploaded to the paste (gist) service.
The `post_gist` HTTP call is modelled by recording its payload here, and
its response is passed in as the `gistId` parameter. -/
structure SendOutcome where
  message : List Char
  uploads : List (List Char)
deriving DecidableEq

/-- Model of `send_reply` (`playground.rs` lines 349-377).  `limit` is the
platform message-size limit and `gistId` the identifier returned by the
paste service.  Note that in the source the `alternative` argument of
`reply_potentially_long_text` is built eagerly, so `post_gist` runs (and an
upload of `code` is recorded) whenever the composed body is non-blank. -/
def send_reply (limit : Nat) (gistId : List Char) (result : PlayResult)
    (code : List Char) (flags : CommandFlags) (flag_parse_errors : List Char) :
    SendOutcome :=
  let body := composeBody result
  if trimChars body = [] then
    ⟨flag_parse_errors ++ "``` ```".toList, []⟩
  else
    ⟨reply_potentially_long_text limit
        (flag_parse_errors ++ "```rust\n".toList ++ body) "```".toList
        ("Output too large. Playground link: ".toList ++ url_from_gist flags gistId),
      [code]⟩

/-- Model of `format_play_eval_stderr` (`playground.rs` lines 422-444). -/
def format_play_eval_stderr (result : PlayResult) : PlayResult :=
  let compiler_warnings :=
    extract_relevant_lines result.stderr ["Compiling playground".toList]
      ["warning emitted".toList, "warnings emitted".toList,
        "error: aborting".toList, "Finished ".toList]
  let program_stderr :=
    if containsSub result.stderr "Running `target".toList then
      extract_relevant_lines result.stderr ["Running `target".toList] []
    else []
  { result with
    stderr :=
      match compiler_warnings, program_stderr with
      | [], [] => []
      | w, [] => w
      | [], s => s
      | w, s => w ++ '\n' :: s }

/-- Model of the send path of `play_or_eval` (`playground.rs` lines
451-476): wrap the user code, parse the flags, shape the service result's
stderr, and send the reply.  The execution service's HTTP response is the
`svcResult` parameter. -/
def play_or_eval (result_handling : ResultHandling) (userCode : List Char)
    (params : List (List Char × List Char)) (svcResult : PlayResult)
    (limit : Nat) (gistId : List Char) : SendOutcome :=
  let code := (maybe_wrap userCode result_handling).1
  let fe := parse_flags params
  send_reply limit gistId (format_play_eval_stderr svcResult) code fe.1 fe.2

/-- Model of Rust `str::match_indices` for a non-empty pattern: scan left to
right; on a match at index `i`, yield `i` and resume after the match,
otherwise advance one character.  (The program only uses the pattern
`"pub fn "`; the empty pattern is not modelled.) -/
def matchIndicesGo (t : List Char) : Nat → List Char → Nat → List Nat
  | 0, _, _ => []
  | _ + 1, [], _ => []
  | fuel + 1, c :: s', i =>
    if t.isPrefixOf (c :: s') && !t.isEmpty then
      i :: matchIndicesGo t fuel (s'.drop (t.length - 1)) (i + t.length)
    else matchIndicesGo t fuel s' (i + 1)

/-- Start indices of the matches of `t` in `s`.  The scan consumes at least
one character per step, so `s.length` fuel runs it to completion. -/
def matchIndices (t s : List Char) : List Nat :=
  matchIndicesGo t s.length s 0

example : matchIndices "ab".toList "cababd".toList = [1, 3] := by decide

/-- The function-name discovery loop of `micro_bench` (`playground.rs`
lines 681-691): for each match of `"pub fn "`, the name runs up to the next
`(` (matches with no following paren are skipped by `continue`), trimmed. -/
def benchCandidates (user_input : List Char) : List (List Char) :=
  (matchIndices "pub fn ".toList user_input).filterMap (fun index =>
    let function_name_start := index + "pub fn ".toList.length
    match firstIdxOf '(' (user_input.drop function_name_start) with
    | some x => some (trimChars ((user_input.drop function_name_start).take x))
    | none => none)

/-- Observable action of the `micro_bench` command: either a direct reply
with a message and no execution-service call, or a request to the execution
service benchmarking the discovered candidates with a forced channel and
mode. -/
inductive BenchAction
  | reply (msg : List Char)
  | execute (candidates : List (List Char)) (channel : Channel) (mode : Mode)
deriving DecidableEq

/-- Model of the control flow of `micro_bench` (`playground.rs` lines
617-720) up to the execution-service call: if the user input has no
`"pub fn "` match, reply with the no-candidates message and stop before any
service call; otherwise call the service with the discovered candidate
names, Nightly channel and Release mode. -/
def micro_bench (user_input : List Char) : BenchAction :=
  if (matchIndices "pub fn ".toList user_input).length = 0 then
    BenchAction.reply "No public functions found for benchmarking :thinking:".toList
  else
    BenchAction.execute (benchCandidates user_input) Channel.Nightly Mode.Release

example :
    micro_bench "fn foo() \x7b\x7d\npub fn bar() \x7b\x7d".toList =
      BenchAction.execute ["bar".toList] Channel.Nightly Mode.Release := by
  decide

/-!
Helper lemmas.
-/

theorem truncFront_of_no_token {st : List (List Char)} {s : List Char}
    (h : ∀ t ∈ st, rfindTok s t = none) : truncFront st s = s := by
  unfold truncFront
  rw [List.filterMap_eq_nil_iff.mpr h]
  rfl

theorem truncBack_of_no_token {et : List (List Char)} {s : List Char}
    (h : ∀ t ∈ et, rfindTok s t = none) : truncBack et s = s := by
  unfold truncBack
  rw [List.filterMap_eq_nil_iff.mpr h]
  rfl

theorem dropLineAt_nil (p : Nat) : dropLineAt [] p = [] := by
  simp [dropLineAt, firstIdxOf]

theorem takeBeforeLineAt_nil (p : Nat) : takeBeforeLineAt [] p = [] := by
  simp [takeBeforeLineAt, lastIdxOf]

theorem truncFront_nil (st : List (List Char)) : truncFront st [] = [] := by
  unfold truncFront
  cases maxNat? (st.filterMap (fun t => rfindTok [] t)) with
  | none => rfl
  | some p => exact dropLineAt_nil p

theorem truncBack_nil (et : List (List Char)) : truncBack et [] = [] := by
  unfold truncBack
  cases minNat? (et.filterMap (fun t => rfindTok [] t)) with
  | none => rfl
  | some p => exact takeBeforeLineAt_nil p

theorem dropLineAt_eq_drop (s : List Char) (p : Nat) :
    ∃ a, dropLineAt s p = s.drop a := by
  unfold dropLineAt
  cases h : firstIdxOf '\n' (s.drop p) with
  | none => exact ⟨s.length, (List.drop_length s).symm⟩
  | some lineEnd => exact ⟨lineEnd + p + 1, rfl⟩

theorem takeBeforeLineAt_eq_take (s : List Char) (p : Nat) :
    ∃ b, takeBeforeLineAt s p = s.take b := by
  unfold takeBeforeLineAt
  cases h : lastIdxOf '\n' (s.take p) with
  | none => exact ⟨0, rfl⟩
  | some prevLineEnd => exact ⟨prevLineEnd + 1, rfl⟩

theorem truncFront_eq_drop (st : List (List Char)) (s : List Char) :
    ∃ a, truncFront st s = s.drop a := by
  unfold truncFront
  cases maxNat? (st.filterMap (fun t => rfindTok s t)) with
  | none => exact ⟨0, rfl⟩
  | some p => exact dropLineAt_eq_drop s p

theorem truncBack_eq_take (et : List (List Char)) (s : List Char) :
    ∃ b, truncBack et s = s.take b := by
  unfold truncBack
  cases minNat? (et.filterMap (fun t => rfindTok s t)) with
  | none => exact ⟨s.length, (List.take_length s).symm⟩
  | some p => exact takeBeforeLineAt_eq_take s p

theorem dropWhile_eq_drop_ex (p : Char → Bool) (l : List Char) :
    ∃ c, l.dropWhile p = l.drop c := by
  induction l with
  | nil => exact ⟨0, rfl⟩
  | cons x xs ih =>
    by_cases hx : p x = true
    · obtain ⟨c, hc⟩ := ih
      exact ⟨c + 1, by simp [List.dropWhile_cons, hx, hc]⟩
    · exact ⟨0, by simp [List.dropWhile_cons, hx]⟩

theorem collapseGo_eq_take (n : Nat) (s : List Char) :
    ∃ d, collapseGo n s = s.take d := by
  induction n generalizing s with
  | zero => exact ⟨s.length, (List.take_length s).symm⟩
  | succ n ih =>
    unfold collapseGo
    by_cases h : ['\n', '\n'].isSuffixOf s = true
    · rw [if_pos h]
      obtain ⟨d, hd⟩ := ih s.dropLast
      refine ⟨min d (s.length - 1), ?_⟩
      rw [hd, List.dropLast_eq_take, List.take_take]
    · rw [if_neg h]
      exact ⟨s.length, (List.take_length s).symm⟩

/-- C9: `extract_relevant_lines` is total: it is defined on every input
including the empty text (on which it returns the empty text), and when no
start token occurs the front-truncation step leaves the text unchanged,
while when no end token occurs in the remaining text the back-truncation
step leaves it unchanged. -/
theorem extract_relevant_lines_total :
    (∀ st et, extract_relevant_lines [] st et = []) ∧
    (∀ s st et, (∀ t ∈ st, rfindTok s t = none) →
      extract_relevant_lines s st et =
        collapseTrailingBlank ((truncBack et s).dropWhile (· = '\n'))) ∧
    (∀ s st et, (∀ t ∈ et, rfindTok (truncFront st s) t = none) →
      extract_relevant_lines s st et =
        collapseTrailingBlank ((truncFront st s).dropWhile (· = '\n'))) := by
  refine ⟨fun st et => ?_, fun s st et h => ?_, fun s st et h => ?_⟩
  · unfold extract_relevant_lines
    rw [truncFront_nil, truncBack_nil]
    rfl
  · unfold extract_relevant_lines
    rw [truncFront_of_no_token h]
  · unfold extract_relevant_lines
    rw [truncBack_of_no_token h]

/-- Witness for C9 at a concrete input: no token of either list occurs in
the text, so neither truncation fires. -/
theorem extract_relevant_lines_total_witness :
    extract_relevant_lines "ab".toList ["zz".toList] ["yy".toList] = "ab".toList := by
  have h := extract_relevant_lines_total.2.1 "ab".toList ["zz".toList] ["yy".toList]
    (by decide)
  rw [h]
  decide

/-- C10: the extractor only removes a prefix and a suffix: its result is a
contiguous infix of the input text. -/
theorem extract_relevant_lines_substring (s : List Char) (st et : List (List Char)) :
    ∃ t u, s = t ++ extract_relevant_lines s st et ++ u := by
  obtain ⟨a, ha⟩ := truncFront_eq_drop st s
  obtain ⟨b, hb⟩ := truncBack_eq_take et (truncFront st s)
  obtain ⟨c, hc⟩ := dropWhile_eq_drop_ex (· = '\n') (truncBack et (truncFront st s))
  obtain ⟨d, hd⟩ :=
    collapseGo_eq_take ((truncBack et (truncFront st s)).dropWhile (· = '\n')).length
      ((truncBack et (truncFront st s)).dropWhile (· = '\n'))
  have h1 : extract_relevant_lines s st et ++
      ((truncBack et (truncFront st s)).dropWhile (· = '\n')).drop d =
      (truncBack et (truncFront st s)).dropWhile (· = '\n') := by
    show collapseGo _ _ ++ _ = _
    rw [hd]
    exact List.take_append_drop d _
  have h2 : (truncBack et (truncFront st s)).take c ++
      (truncBack et (truncFront st s)).dropWhile (· = '\n') =
      truncBack et (truncFront st s) := by
    rw [hc]
    exact List.take_append_drop c _
  have h3 : truncBack et (truncFront st s) ++ (truncFront st s).drop b =
      truncFront st s := by
    rw [hb]
    exact List.take_append_drop b _
  have h4 : List.take a s ++ truncFront st s = s := by
    rw [ha]
    exact List.take_append_drop a s
  refine ⟨List.take a s ++ (truncBack et (truncFront st s)).take c,
    ((truncBack et (truncFront st s)).dropWhile (· = '\n')).drop d ++
      (truncFront st s).drop b, ?_⟩
  calc s = List.take a s ++ truncFront st s := h4.symm
    _ = List.take a s ++ (truncBack et (truncFront st s) ++ (truncFront st s).drop b) := by
        rw [h3]
    _ = List.take a s ++
        (((truncBack et (truncFront st s)).take c ++
            (truncBack et (truncFront st s)).dropWhile (· = '\n')) ++
          (truncFront st s).drop b) := by rw [h2]
    _ = List.take a s ++
        (((truncBack et (truncFront st s)).take c ++
            (extract_relevant_lines s st et ++
              ((truncBack et (truncFront st s)).dropWhile (· = '\n')).drop d)) ++
          (truncFront st s).drop b) := by rw [h1]
    _ = (List.take a s ++ (truncBack et (truncFront st s)).take c) ++
        extract_relevant_lines s st et ++
        (((truncBack et (truncFront st s)).dropWhile (· = '\n')).drop d ++
          (truncFront st s).drop b) := by simp [List.append_assoc]

/-- C8: the reply body is stderr on failure, else stdout when stderr is
empty, else stderr followed by stdout; the failing `boom` result keeps no
stdout; and a body that trims to nothing makes `send_reply` send just the
diagnostics followed by an empty code block, with no upload. -/
theorem send_reply_spec :
    (∀ r : PlayResult,
      composeBody r =
        if r.success = false then r.stderr
        else if r.stderr = [] then r.stdout
        else r.stderr ++ '\n' :: r.stdout) ∧
    composeBody ⟨false, [], "boom".toList⟩ = "boom".toList ∧
    (∀ limit gistId r code flags errs, trimChars (composeBody r) = [] →
      send_reply limit gistId r code flags errs =
        ⟨errs ++ "``` ```".toList, []⟩) := by
  refine ⟨fun r => ?_, by decide, fun limit gistId r code flags errs h => ?_⟩
  · cases hr : r.success <;> simp [composeBody, hr]
  · simp only [send_reply]
    rw [if_pos h]

/-- Witness for C8's conditional part at a concrete all-empty result. -/
theorem send_reply_spec_witness :
    send_reply 100 [] ⟨true, [], []⟩ [] ⟨Channel.Nightly, Mode.Debug, Edition.E2018⟩ [] =
      ⟨"``` ```".toList, []⟩ :=
  send_reply_spec.2.2 100 [] ⟨true, [], []⟩ []
    ⟨Channel.Nightly, Mode.Debug, Edition.E2018⟩ [] (by decide)

/-- C6: a benchmark invocation whose input has no `"pub fn "` match replies
with the no-public-functions message and issues no execution-service call,
and the two-function example input discovers exactly the candidate `bar`. -/
theorem micro_bench_spec :
    (∀ input, (matchIndices "pub fn ".toList input).length = 0 →
      micro_bench input =
        BenchAction.reply "No public functions found for benchmarking :thinking:".toList) ∧
    micro_bench "fn foo() \x7b\x7d\npub fn bar() \x7b\x7d".toList =
      BenchAction.execute ["bar".toList] Channel.Nightly Mode.Release := by
  refine ⟨fun input h => ?_, by decide⟩
  unfold micro_bench
  rw [if_pos h]

/-- Witness for C6's conditional part at a concrete candidate-free input. -/
theorem micro_bench_spec_witness :
    micro_bench "fn private_only() \x7b\x7d".toList =
      BenchAction.reply "No public functions found for benchmarking :thinking:".toList :=
  micro_bench_spec.1 "fn private_only() \x7b\x7d".toList (by decide)

/-- C7: `parse_flags` always returns a configuration: each of the three
recognized keys overrides its default exactly when its value parses, the
diagnostics are the concatenation of one newline-terminated message per
recognized key that failed to parse, the empty map gives the defaults with
empty diagnostics, the bogus channel keeps the default and reports a
diagnostic containing `bogus` ending in exactly one line terminator, and
keys other than the three recognized ones never affect the result. -/
theorem parse_flags_total_spec :
    (parse_flags [] = (⟨Channel.Nightly, Mode.Debug, Edition.E2018⟩, [])) ∧
    (parse_flags [("channel".toList, "bogus".toList)] =
        (⟨Channel.Nightly, Mode.Debug, Edition.E2018⟩,
          "invalid release channel `bogus`\n".toList) ∧
      containsSub "invalid release channel `bogus`\n".toList "bogus".toList = true ∧
      ['\n'].isSuffixOf "invalid release channel `bogus`\n".toList = true ∧
      ['\n', '\n'].isSuffixOf "invalid release channel `bogus`\n".toList = false) ∧
    (∀ params : List (List Char × List Char),
      parse_flags params =
        (⟨(match params.lookup "channel".toList with
            | some v =>
              match channelFromStr v with
              | Except.ok c => c
              | Except.error _ => Channel.Nightly
            | none => Channel.Nightly),
          (match params.lookup "mode".toList with
            | some v =>
              match modeFromStr v with
              | Except.ok m => m
              | Except.error _ => Mode.Debug
            | none => Mode.Debug),
          (match params.lookup "edition".toList with
            | some v =>
              match editionFromStr v with
              | Except.ok e => e
              | Except.error _ => Edition.E2018
            | none => Edition.E2018)⟩,
          (match params.lookup "channel".toList with
            | some v =>
              match channelFromStr v with
              | Except.ok _ => []
              | Except.error e => e ++ ['\n']
            | none => []) ++
            (match params.lookup "mode".toList with
              | some v =>
                match modeFromStr v with
                | Except.ok _ => []
                | Except.error e => e ++ ['\n']
              | none => []) ++
            (match params.lookup "edition".toList with
              | some v =>
                match editionFromStr v with
                | Except.ok _ => []
                | Except.error e => e ++ ['\n']
              | none => []))) ∧
    (∀ p₁ p₂ : List (List Char × List Char),
      p₁.lookup "channel".toList = p₂.lookup "channel".toList →
      p₁.lookup "mode".toList = p₂.lookup "mode".toList →
      p₁.lookup "edition".toList = p₂.lookup "edition".toList →
      parse_flags p₁ = parse_flags p₂) := by
  refine ⟨by decide, by decide, fun params => ?_, fun p₁ p₂ h1 h2 h3 => ?_⟩
  · unfold parse_flags
    rcases params.lookup "channel".toList with _ | v
    all_goals rcases params.lookup "mode".toList with _ | w
    all_goals rcases params.lookup "edition".toList with _ | x
    all_goals dsimp only
    all_goals try cases channelFromStr v
    all_goals try cases modeFromStr w
    all_goals try cases editionFromStr x
    all_goals rfl
  · unfold parse_flags
    rw [h1, h2, h3]

/-- Witness for C7's universally quantified parts at concrete inputs: an
unrecognized key is ignored. -/
theorem parse_flags_total_spec_witness :
    parse_flags [("nonsense".toList, "1".toList), ("mode".toList, "release".toList)] =
      parse_flags [("mode".toList, "release".toList)] :=
  parse_flags_total_spec.2.2.2
    [("nonsense".toList, "1".toList), ("mode".toList, "release".toList)]
    [("mode".toList, "release".toList)] (by decide) (by decide) (by decide)

/-!
Trailing-terminator facts (claim C4).
-/

/-- A diagnostics block as built by `parse_flags`: empty, or ending in a
closing backtick followed by one newline. -/
def EndsBacktickNl (d : List Char) : Prop :=
  d = [] ∨ ∃ y, d = y ++ ['`', '\n']

theorem endsBacktickNl_append {a b : List Char} (ha : EndsBacktickNl a)
    (hb : EndsBacktickNl b) : EndsBacktickNl (a ++ b) := by
  rcases hb with hb | ⟨y, hy⟩
  · rcases ha with ha | ⟨z, hz⟩
    · exact Or.inl (by rw [ha, hb]; rfl)
    · exact Or.inr ⟨z, by rw [hb, hz]; simp⟩
  · exact Or.inr ⟨a ++ y, by rw [hy]; simp⟩

theorem channelFromStr_error_shape {v e : List Char}
    (h : channelFromStr v = Except.error e) : ∃ y, e = y ++ ['`'] := by
  unfold channelFromStr at h
  split_ifs at h
  exact ⟨"invalid release channel `".toList ++ v, by injection h with h'; rw [← h']⟩

theorem modeFromStr_error_shape {v e : List Char}
    (h : modeFromStr v = Except.error e) : ∃ y, e = y ++ ['`'] := by
  unfold modeFromStr at h
  split_ifs at h
  exact ⟨"invalid compilation mode `".toList ++ v, by injection h with h'; rw [← h']⟩

theorem editionFromStr_error_shape {v e : List Char}
    (h : editionFromStr v = Except.error e) : ∃ y, e = y ++ ['`'] := by
  unfold editionFromStr at h
  split_ifs at h
  exact ⟨"invalid edition `".toList ++ v, by injection h with h'; rw [← h']⟩

theorem parse_flags_diag_shape (params : List (List Char × List Char)) :
    EndsBacktickNl (parse_flags params).2 := by
  unfold parse_flags
  dsimp only
  apply endsBacktickNl_append
  apply endsBacktickNl_append
  · rcases params.lookup "channel".toList with _ | v
    · exact Or.inl rfl
    · dsimp only
      cases h : channelFromStr v with
      | ok c => exact Or.inl rfl
      | error e =>
        obtain ⟨y, hy⟩ := channelFromStr_error_shape h
        exact Or.inr ⟨y, by dsimp only; rw [hy]; simp⟩
  · rcases params.lookup "mode".toList with _ | v
    · exact Or.inl rfl
    · dsimp only
      cases h : modeFromStr v with
      | ok c => exact Or.inl rfl
      | error e =>
        obtain ⟨y, hy⟩ := modeFromStr_error_shape h
        exact Or.inr ⟨y, by dsimp only; rw [hy]; simp⟩
  · rcases params.lookup "edition".toList with _ | v
    · exact Or.inl rfl
    · dsimp only
      cases h : editionFromStr v with
      | ok c => exact Or.inl rfl
      | error e =>
        obtain ⟨y, hy⟩ := editionFromStr_error_shape h
        exact Or.inr ⟨y, by dsimp only; rw [hy]; simp⟩

theorem endsBacktickNl_trailing {d : List Char} (h : EndsBacktickNl d) :
    d = [] ∨
      (['\n'].isSuffixOf d = true ∧ ['\n', '\n'].isSuffixOf d = false) := by
  rcases h with h | ⟨y, hy⟩
  · exact Or.inl h
  · refine Or.inr ⟨?_, ?_⟩
    · rw [List.isSuffixOf_iff_suffix, hy]
      exact ⟨y ++ ['`'], by simp⟩
    · by_contra hc
      have hs : ['\n', '\n'] <:+ d := by
        rw [← List.isSuffixOf_iff_suffix]
        revert hc
        cases ['\n', '\n'].isSuffixOf d <;> simp
      obtain ⟨t, ht⟩ := hs
      rw [hy] at ht
      have := (List.append_inj' ht (by rfl)).2
      simp at this

theorem collapseGo_no_double_newline (n : Nat) (s : List Char)
    (h : s.length ≤ n) : ['\n', '\n'].isSuffixOf (collapseGo n s) = false := by
  induction n generalizing s with
  | zero =>
    have : s = [] := List.eq_nil_of_length_eq_zero (Nat.le_zero.mp h)
    rw [this]
    rfl
  | succ n ih =>
    unfold collapseGo
    by_cases hs : ['\n', '\n'].isSuffixOf s = true
    · rw [if_pos hs]
      apply ih
      have hsfx := List.isSuffixOf_iff_suffix.mp hs
      have h2 := List.IsSuffix.length_le hsfx
      simp at h2
      rw [List.length_dropLast]
      omega
    · rw [if_neg hs]
      revert hs
      cases ['\n', '\n'].isSuffixOf s <;> simp

/-- C4 counterexample: a text in which neither token list matches is
returned by `extract_relevant_lines` unchanged, so the non-empty result
`"a"` carries no trailing line terminator at all. -/
theorem extract_relevant_lines_no_terminator_cx :
    extract_relevant_lines "a".toList [] [] = "a".toList ∧
    "a".toList ≠ [] ∧ ['\n'].isSuffixOf "a".toList = false := by
  decide

/-- C4 as amended: the diagnostics string of `parse_flags` is empty or ends
with exactly one trailing line terminator, and the result of
`extract_relevant_lines` never ends with more than one trailing line
terminator - but a non-empty extraction result may end with none. -/
theorem trailing_terminator_invariant :
    (∀ params : List (List Char × List Char),
      (parse_flags params).2 = [] ∨
        (['\n'].isSuffixOf (parse_flags params).2 = true ∧
          ['\n', '\n'].isSuffixOf (parse_flags params).2 = false)) ∧
    (∀ s st et,
      ['\n', '\n'].isSuffixOf (extract_relevant_lines s st et) = false) := by
  refine ⟨fun params => ?_, fun s st et => ?_⟩
  · exact endsBacktickNl_trailing (parse_flags_diag_shape params)
  · exact collapseGo_no_double_newline _ _ (Nat.le_refl _)

/-!
Code wrapper characterization (claim C2).
-/

/-- A line the leading scan of `maybe_wrap` consumes: its trimmed form is a
module-level attribute or empty. -/
def leadOk (l : List Char) : Bool :=
  "#![".toList.isPrefixOf (trimChars l) || (trimChars l).isEmpty

/-- The trimmed attribute hoisted from a consumed line, if it is one. -/
def attrOf (l : List Char) : Option (List Char) :=
  if "#![".toList.isPrefixOf (trimChars l) then some (trimChars l) else none

theorem collectAttrs_eq (ls : List (List Char)) :
    collectAttrs ls = ((ls.takeWhile leadOk).filterMap attrOf, ls.dropWhile leadOk) := by
  induction ls with
  | nil => rfl
  | cons l ls ih =>
    by_cases h1 : ['#', '!', '['] <+: trimChars l
    · simp [collectAttrs, leadOk, attrOf, List.isPrefixOf_iff_prefix, h1, ih]
    · by_cases h2 : trimChars l = []
      · simp [collectAttrs, leadOk, attrOf, List.isPrefixOf_iff_prefix, h1, h2, ih]
      · simp [collectAttrs, leadOk, attrOf, List.isPrefixOf_iff_prefix, h1, h2,
          List.isEmpty_iff]

/-- C2 counterexample: on an attribute line with leading whitespace, the
wrapper hoists the trimmed form `#![a]`, not the original line verbatim, so
the original line `"  #![a]"` is not at the top of the output. -/
theorem maybe_wrap_verbatim_cx :
    (maybe_wrap "  #![a]\nx".toList ResultHandling.Discard).1 =
      "#![a]\nfn main() \x7b let _ = \x7b\nx\n\x7d; \x7d".toList ∧
    "  #![a]".toList.isPrefixOf
      (maybe_wrap "  #![a]\nx".toList ResultHandling.Discard).1 = false := by
  decide

/-- C2 as amended: code containing the entry-point marker is returned
unchanged with `was_wrapped = false`; otherwise the output hoists, in
original order and at the very top, the trimmed form of every attribute
line of the leading attribute-or-blank run (blank lines of the run are
skipped without effect and later attributes are left in place among the
remaining lines), followed by the policy's header, the remaining lines,
and the policy's footer - for `Discard` the header is
`"fn main() { let _ = {"` plus a newline and the footer is `"}; }"`. -/
theorem maybe_wrap_spec (code : List Char) (rh : ResultHandling) :
    (containsSub code "fn main".toList = true → maybe_wrap code rh = (code, false)) ∧
    (containsSub code "fn main".toList = false →
      (maybe_wrap code rh).2 = true ∧
      (maybe_wrap code rh).1 =
        ((((rustLines code).takeWhile leadOk).filterMap attrOf).map
            (fun l => l ++ ['\n'])).flatten ++
          headerStr rh ++
          (((rustLines code).dropWhile leadOk).map (fun l => l ++ ['\n'])).flatten ++
          footerStr rh) := by
  constructor
  · intro h
    unfold maybe_wrap
    rw [h]
    rfl
  · intro h
    unfold maybe_wrap
    rw [h]
    refine ⟨rfl, ?_⟩
    rw [collectAttrs_eq]
    rfl

/-- Witness for C2's two conditional branches at concrete inputs. -/
theorem maybe_wrap_spec_witness :
    maybe_wrap "fn main()".toList ResultHandling.None = ("fn main()".toList, false) ∧
    (maybe_wrap "x".toList ResultHandling.Discard).2 = true :=
  ⟨(maybe_wrap_spec "fn main()".toList ResultHandling.None).1 (by decide),
    ((maybe_wrap_spec "x".toList ResultHandling.Discard).2 (by decide)).1⟩

/-!
Overflow reply path (claim C3).
-/

/-- C3 counterexample: with a composed body that exceeds the limit, the
single recorded upload payload of the overflow path is the wrapped code the
service ran, not the original pre-wrap user snippet `"1"`. -/
theorem play_or_eval_upload_cx :
    5 < ("```rust\n".toList ++
          composeBody (format_play_eval_stderr ⟨true, "0123456789".toList, []⟩)).length +
        "```".toList.length ∧
    (play_or_eval ResultHandling.Print "1".toList []
        ⟨true, "0123456789".toList, []⟩ 5 "g".toList).uploads =
      [(maybe_wrap "1".toList ResultHandling.Print).1] ∧
    (maybe_wrap "1".toList ResultHandling.Print).1 ≠ "1".toList ∧
    (maybe_wrap "1".toList ResultHandling.Print).2 = true := by
  decide

/-- C3 as amended: when the composed body is non-blank and the full inline
reply would exceed the platform limit (and the diagnostics and overflow
notice themselves fit), `send_reply` records exactly one paste upload whose
payload is the code passed to the execution service (the possibly-wrapped
code, not the pre-wrap user snippet), and the reply consists of the
diagnostics followed by a truncated body and the deep link, which encodes
the requested channel, mode, edition and the paste identifier. -/
theorem send_reply_overflow_spec (limit : Nat) (gistId : List Char)
    (r : PlayResult) (code : List Char) (flags : CommandFlags) (errs : List Char)
    (hbody : ¬trimChars (composeBody r) = [])
    (hover : limit <
      (errs ++ "```rust\n".toList ++ composeBody r).length + "```".toList.length)
    (hfit : errs.length + "```".toList.length +
      ("Output too large. Playground link: ".toList ++ url_from_gist flags gistId).length
        ≤ limit) :
    (send_reply limit gistId r code flags errs).uploads = [code] ∧
    (∃ mid, (send_reply limit gistId r code flags errs).message =
      errs ++ mid ++ "Output too large. Playground link: ".toList ++
        url_from_gist flags gistId) ∧
    (∃ v m e, url_from_gist flags gistId =
      "https://play.rust-lang.org/?version=".toList ++ v ++ "&mode=".toList ++ m ++
        "&edition=".toList ++ e ++ "&gist=".toList ++ gistId) := by
  unfold send_reply
  rw [if_neg hbody]
  refine ⟨rfl, ?_, ?_⟩
  · unfold reply_potentially_long_text
    rw [if_neg (by
      intro hle
      have := hover
      simp only [List.length_append] at hle this
      omega)]
    refine ⟨((("```rust\n".toList ++ composeBody r).take
        (limit - "```".toList.length -
          ("Output too large. Playground link: ".toList ++
            url_from_gist flags gistId).length - errs.length)) ++ "```".toList), ?_⟩
    rw [List.append_assoc errs "```rust\n".toList (composeBody r),
      List.take_append_eq_append_take,
      List.take_of_length_le (by
        simp only [List.length_append] at hfit ⊢
        omega)]
    simp [List.append_assoc]
  · cases flags with
    | mk ch mo ed =>
      cases ch <;> cases mo <;> cases ed <;>
        exact ⟨_, _, _, rfl⟩

set_option maxRecDepth 10000 in
/-- Witness for C3's amended overflow theorem at a concrete oversized
result. -/
theorem send_reply_overflow_spec_witness :
    (send_reply 200 "g".toList ⟨true, List.replicate 200 'x', []⟩ "wrapped".toList
        ⟨Channel.Nightly, Mode.Debug, Edition.E2018⟩ []).uploads = ["wrapped".toList] ∧
    (∃ mid, (send_reply 200 "g".toList ⟨true, List.replicate 200 'x', []⟩ "wrapped".toList
        ⟨Channel.Nightly, Mode.Debug, Edition.E2018⟩ []).message =
      [] ++ mid ++ "Output too large. Playground link: ".toList ++
        url_from_gist ⟨Channel.Nightly, Mode.Debug, Edition.E2018⟩ "g".toList) ∧
    (∃ v m e, url_from_gist ⟨Channel.Nightly, Mode.Debug, Edition.E2018⟩ "g".toList =
      "https://play.rust-lang.org/?version=".toList ++ v ++ "&mode=".toList ++ m ++
        "&edition=".toList ++ e ++ "&gist=".toList ++ "g".toList) :=
  send_reply_overflow_spec 200 "g".toList ⟨true, List.replicate 200 'x', []⟩
    "wrapped".toList ⟨Channel.Nightly, Mode.Debug, Edition.E2018⟩ []
    (by decide) (by decide) (by decide)

/-!
Equivalence of the spec-side and code-side truncation steps (claim C1).
-/

theorem splitNl_ne_nil (s : List Char) : splitNl s ≠ [] := by
  cases s with
  | nil => simp [splitNl]
  | cons c s =>
    unfold splitNl
    by_cases hc : c = '\n'
    · simp [hc]
    · cases h : splitNl s <;> simp [hc, h]

theorem joinNl_cons_cons (c : Char) (l : List Char) (ls : List (List Char)) :
    joinNl ((c :: l) :: ls) = c :: joinNl (l :: ls) := by
  cases ls <;> rfl

theorem joinNl_splitNl (s : List Char) : joinNl (splitNl s) = s := by
  induction s with
  | nil => rfl
  | cons c s ih =>
    obtain ⟨p0, ps0, hs⟩ := List.exists_cons_of_ne_nil (splitNl_ne_nil s)
    by_cases hc : c = '\n'
    · subst hc
      rw [show splitNl ('\n' :: s) = [] :: splitNl s from by simp [splitNl], hs]
      rw [show joinNl ([] :: p0 :: ps0) = '\n' :: joinNl (p0 :: ps0) from rfl,
        ← hs, ih]
    · simp only [splitNl, if_neg hc, hs]
      rw [joinNl_cons_cons, ← hs, ih]

theorem lastIdxOf_eq_none_iff (c : Char) (l : List Char) :
    lastIdxOf c l = none ↔ l.count c = 0 := by
  induction l with
  | nil => simp [lastIdxOf]
  | cons d l ih =>
    unfold lastIdxOf
    cases h : lastIdxOf c l with
    | some i =>
      have hc : l.count c ≠ 0 := by
        intro h0
        rw [ih.mpr h0] at h
        exact Option.noConfusion h
      simp [List.count_cons, hc]
    | none =>
      by_cases hd : d = c
      · simp [hd, List.count_cons, ih.mp h]
      · simp [hd, List.count_cons, ih.mp h]

theorem maxNat?_mem {xs : List Nat} {m : Nat} (h : maxNat? xs = some m) : m ∈ xs := by
  induction xs generalizing m with
  | nil => exact Option.noConfusion h
  | cons x xs ih =>
    unfold maxNat? at h
    cases h' : maxNat? xs with
    | none =>
      rw [h'] at h
      injection h with h
      exact h ▸ List.mem_cons_self x xs
    | some m' =>
      rw [h'] at h
      injection h with h
      rcases max_choice x m' with hm | hm
      · rw [← h, hm]
        exact List.mem_cons_self x xs
      · rw [← h, hm]
        exact List.mem_cons_of_mem x (ih h')

theorem minNat?_mem {xs : List Nat} {m : Nat} (h : minNat? xs = some m) : m ∈ xs := by
  induction xs generalizing m with
  | nil => exact Option.noConfusion h
  | cons x xs ih =>
    unfold minNat? at h
    cases h' : minNat? xs with
    | none =>
      rw [h'] at h
      injection h with h
      exact h ▸ List.mem_cons_self x xs
    | some m' =>
      rw [h'] at h
      injection h with h
      rcases min_choice x m' with hm | hm
      · rw [← h, hm]
        exact List.mem_cons_self x xs
      · rw [← h, hm]
        exact List.mem_cons_of_mem x (ih h')

theorem rfindDown_some_le {t s : List Char} {i p : Nat}
    (h : rfindDown t s i = some p) : p ≤ i ∧ occursAtB t s p = true := by
  induction i with
  | zero =>
    unfold rfindDown at h
    by_cases h0 : occursAtB t s 0 = true
    · rw [if_pos h0] at h
      injection h with h
      exact ⟨Nat.le_of_eq h.symm, h ▸ h0⟩
    · rw [if_neg h0] at h
      exact Option.noConfusion h
  | succ i ih =>
    unfold rfindDown at h
    by_cases h0 : occursAtB t s (i + 1) = true
    · rw [if_pos h0] at h
      injection h with h
      exact ⟨Nat.le_of_eq h.symm, h ▸ h0⟩
    · rw [if_neg h0] at h
      obtain ⟨h1, h2⟩ := ih h
      exact ⟨Nat.le_succ_of_le h1, h2⟩

theorem occursAtB_le_length {t s : List Char} {p : Nat}
    (h : occursAtB t s p = true) : p ≤ s.length := by
  have := (occursAtB_eq_true_iff.mp h).1
  omega

theorem rfindTok_some_le {s t : List Char} {p : Nat}
    (h : rfindTok s t = some p) : p ≤ s.length := by
  unfold rfindTok at h
  exact occursAtB_le_length (rfindDown_some_le h).2

theorem dropLineAt_cons_zero {c : Char} (hc : c ≠ '\n') (s : List Char) :
    dropLineAt (c :: s) 0 = dropLineAt s 0 := by
  unfold dropLineAt
  rw [List.drop_zero, List.drop_zero]
  cases hf : firstIdxOf '\n' s with
  | none => simp [firstIdxOf, hc, hf]
  | some j => simp [firstIdxOf, hc, hf]

theorem specDropLineAt_cons_zero {c : Char} (hc : c ≠ '\n') (s : List Char) :
    specDropLineAt (c :: s) 0 = specDropLineAt s 0 := by
  obtain ⟨p0, ps0, hs⟩ := List.exists_cons_of_ne_nil (splitNl_ne_nil s)
  unfold specDropLineAt
  rw [show splitNl (c :: s) = (c :: p0) :: ps0 from by simp [splitNl, hc, hs], hs]
  simp

theorem dropLineAt_cons_succ (c : Char) (s : List Char) (p : Nat) :
    dropLineAt (c :: s) (p + 1) = dropLineAt s p := by
  unfold dropLineAt
  rw [List.drop_succ_cons]
  cases hf : firstIdxOf '\n' (s.drop p) with
  | none => rfl
  | some j =>
    have harith : j + (p + 1) + 1 = (j + p + 1) + 1 := by omega
    simp only [harith, List.drop_succ_cons]

theorem specDropLineAt_cons_succ_nl (s : List Char) (p : Nat) :
    specDropLineAt ('\n' :: s) (p + 1) = specDropLineAt s p := by
  unfold specDropLineAt
  rw [show splitNl ('\n' :: s) = [] :: splitNl s from by simp [splitNl],
    List.take_succ_cons]
  have hcnt : ('\n' :: s.take p).count '\n' = (s.take p).count '\n' + 1 := by
    simp [List.count_cons]
  rw [hcnt, List.drop_succ_cons]

theorem specDropLineAt_cons_succ_ne {c : Char} (hc : c ≠ '\n') (s : List Char)
    (p : Nat) : specDropLineAt (c :: s) (p + 1) = specDropLineAt s p := by
  obtain ⟨p0, ps0, hs⟩ := List.exists_cons_of_ne_nil (splitNl_ne_nil s)
  unfold specDropLineAt
  rw [show splitNl (c :: s) = (c :: p0) :: ps0 from by simp [splitNl, hc, hs], hs,
    List.take_succ_cons]
  have hcnt : (c :: s.take p).count '\n' = (s.take p).count '\n' := by
    simp [List.count_cons, hc]
  rw [hcnt, List.drop_succ_cons, List.drop_succ_cons]

theorem specDropLineAt_eq (s : List Char) (p : Nat) :
    specDropLineAt s p = dropLineAt s p := by
  induction s generalizing p with
  | nil =>
    simp [specDropLineAt, dropLineAt, splitNl, firstIdxOf, joinNl]
  | cons c s ih =>
    cases p with
    | zero =>
      by_cases hc : c = '\n'
      · subst hc
        unfold specDropLineAt dropLineAt
        rw [show splitNl ('\n' :: s) = [] :: splitNl s from by simp [splitNl]]
        simp [firstIdxOf, joinNl_splitNl]
      · rw [specDropLineAt_cons_zero hc, dropLineAt_cons_zero hc]
        exact ih 0
    | succ p' =>
      rw [dropLineAt_cons_succ]
      by_cases hc : c = '\n'
      · subst hc
        rw [specDropLineAt_cons_succ_nl]
        exact ih p'
      · rw [specDropLineAt_cons_succ_ne hc]
        exact ih p'

theorem takeBeforeLineAt_zero (s : List Char) : takeBeforeLineAt s 0 = [] := by
  unfold takeBeforeLineAt
  rw [List.take_zero]
  rfl

theorem specTakeBeforeLineAt_zero (s : List Char) :
    specTakeBeforeLineAt s 0 = [] := by
  unfold specTakeBeforeLineAt
  rw [List.take_zero]
  rfl

theorem takeBeforeLineAt_cons_succ_nl (s : List Char) (p : Nat) :
    takeBeforeLineAt ('\n' :: s) (p + 1) = '\n' :: takeBeforeLineAt s p := by
  unfold takeBeforeLineAt
  rw [List.take_succ_cons]
  cases hf : lastIdxOf '\n' (s.take p) with
  | some i => simp [lastIdxOf, hf, List.take_succ_cons]
  | none => simp [lastIdxOf, hf]

theorem specTakeBeforeLineAt_cons_succ_nl (s : List Char) (p : Nat) :
    specTakeBeforeLineAt ('\n' :: s) (p + 1) = '\n' :: specTakeBeforeLineAt s p := by
  unfold specTakeBeforeLineAt
  rw [show splitNl ('\n' :: s) = [] :: splitNl s from by simp [splitNl],
    List.take_succ_cons]
  have hcnt : ('\n' :: s.take p).count '\n' = (s.take p).count '\n' + 1 := by
    simp [List.count_cons]
  rw [hcnt, List.take_succ_cons]
  simp

theorem takeBeforeLineAt_cons_succ_ne {c : Char} (hc : c ≠ '\n') (s : List Char)
    (p : Nat) :
    takeBeforeLineAt (c :: s) (p + 1) =
      if lastIdxOf '\n' (s.take p) = none then []
      else c :: takeBeforeLineAt s p := by
  unfold takeBeforeLineAt
  rw [List.take_succ_cons]
  cases hf : lastIdxOf '\n' (s.take p) with
  | some i => simp [lastIdxOf, hf, List.take_succ_cons]
  | none => simp [lastIdxOf, hf, hc]

theorem specTakeBeforeLineAt_cons_succ_ne {c : Char} (hc : c ≠ '\n')
    (s : List Char) (p : Nat) :
    specTakeBeforeLineAt (c :: s) (p + 1) =
      if (s.take p).count '\n' = 0 then []
      else c :: specTakeBeforeLineAt s p := by
  obtain ⟨p0, ps0, hs⟩ := List.exists_cons_of_ne_nil (splitNl_ne_nil s)
  unfold specTakeBeforeLineAt
  rw [show splitNl (c :: s) = (c :: p0) :: ps0 from by simp [splitNl, hc, hs], hs,
    List.take_succ_cons]
  have hcnt : (c :: s.take p).count '\n' = (s.take p).count '\n' := by
    simp [List.count_cons, hc]
  rw [hcnt]
  by_cases h0 : (s.take p).count '\n' = 0
  · rw [if_pos h0, h0]
    rfl
  · obtain ⟨k, hk⟩ := Nat.exists_eq_succ_of_ne_zero h0
    rw [if_neg h0, hk, List.take_succ_cons, List.take_succ_cons]
    simp

theorem specTakeBeforeLineAt_eq (s : List Char) (p : Nat) :
    specTakeBeforeLineAt s p = takeBeforeLineAt s p := by
  induction s generalizing p with
  | nil =>
    simp [specTakeBeforeLineAt, takeBeforeLineAt, splitNl, lastIdxOf]
  | cons c s ih =>
    cases p with
    | zero => rw [specTakeBeforeLineAt_zero, takeBeforeLineAt_zero]
    | succ p' =>
      by_cases hc : c = '\n'
      · subst hc
        rw [takeBeforeLineAt_cons_succ_nl, specTakeBeforeLineAt_cons_succ_nl, ih]
      · rw [takeBeforeLineAt_cons_succ_ne hc, specTakeBeforeLineAt_cons_succ_ne hc]
        by_cases h0 : lastIdxOf '\n' (s.take p') = none
        · rw [if_pos h0, if_pos ((lastIdxOf_eq_none_iff _ _).mp h0)]
        · rw [if_neg h0,
            if_neg (fun hcz => h0 ((lastIdxOf_eq_none_iff _ _).mpr hcz)), ih]

theorem specTruncFront_eq (st : List (List Char)) (s : List Char) :
    specTruncFront st s = truncFront st s := by
  unfold specTruncFront truncFront
  cases maxNat? (st.filterMap (fun t => rfindTok s t)) with
  | none => rfl
  | some p => exact specDropLineAt_eq s p

theorem specTruncBack_eq (et : List (List Char)) (s : List Char) :
    specTruncBack et s = truncBack et s := by
  unfold specTruncBack truncBack
  cases minNat? (et.filterMap (fun t => rfindTok s t)) with
  | none => rfl
  | some p => exact specTakeBeforeLineAt_eq s p

/-- C1: `extract_relevant_lines` performs exactly the two spec-described
truncation steps - first cut away everything up to and including the line
containing the largest last occurrence of a start token (no
front-truncation when none occurs), then cut away everything from the start
of the line containing the smallest last occurrence of an end token in the
remaining text (no back-truncation when none occurs) - followed by the
blank-line cleanup; in particular a repeated start token truncates at its
last occurrence's line boundary, not its first. -/
theorem extract_relevant_lines_two_step :
    (∀ s st et, extract_relevant_lines s st et =
      collapseTrailingBlank
        ((specTruncBack et (specTruncFront st s)).dropWhile (· = '\n'))) ∧
    extract_relevant_lines "go a\ngo b\nc".toList ["go".toList] [] = "c".toList ∧
    extract_relevant_lines "go a\ngo b\nc".toList ["go".toList] [] ≠
      "go b\nc".toList := by
  refine ⟨fun s st et => ?_, by decide, by decide⟩
  rw [specTruncFront_eq, specTruncBack_eq]
  rfl

/-!
Occurrence lemmas used for the wrap/strip round trip (claim C5).
-/

theorem occursAt_cons_succ {t : List Char} {c : Char} {s : List Char} {p : Nat} :
    OccursAt t (c :: s) (p + 1) ↔ OccursAt t s p := by
  unfold OccursAt
  rw [List.drop_succ_cons, List.length_cons]
  constructor
  · rintro ⟨h1, h2⟩
    exact ⟨by omega, h2⟩
  · rintro ⟨h1, h2⟩
    exact ⟨by omega, h2⟩

theorem occursAt_append_shift {t a x : List Char} {r : Nat} :
    OccursAt t (a ++ x) (a.length + r) ↔ OccursAt t x r := by
  unfold OccursAt
  rw [List.drop_append, List.length_append]
  constructor
  · rintro ⟨h1, h2⟩
    exact ⟨by omega, h2⟩
  · rintro ⟨h1, h2⟩
    exact ⟨by omega, h2⟩

theorem prefix_drop_nl {t : List Char} (ht : '\n' ∉ t) :
    ∀ (a b : List Char), t <+: a ++ '\n' :: b → t <+: a := by
  induction t with
  | nil => exact fun a b _ => List.nil_prefix
  | cons d t' ih =>
    intro a b h
    cases a with
    | nil =>
      exfalso
      rw [List.nil_append] at h
      have := (List.cons_prefix_cons.mp h).1
      exact ht (this ▸ List.mem_cons_self d t')
    | cons c a' =>
      rw [List.cons_append] at h
      obtain ⟨rfl, h2⟩ := List.cons_prefix_cons.mp h
      have ht' : '\n' ∉ t' := fun hm => ht (List.mem_cons_of_mem _ hm)
      exact List.cons_prefix_cons.mpr ⟨rfl, ih ht' a' b h2⟩

theorem occursAt_split_nl {t : List Char} (ht : '\n' ∉ t) (htne : t ≠ []) :
    ∀ (a b : List Char) (p : Nat), OccursAt t (a ++ '\n' :: b) p →
      (p + t.length ≤ a.length ∧ OccursAt t a p) ∨
      (a.length + 1 ≤ p ∧ OccursAt t b (p - a.length - 1)) := by
  intro a
  induction a with
  | nil =>
    intro b p h
    cases p with
    | zero =>
      exfalso
      obtain ⟨h1, h2⟩ := h
      rw [List.nil_append, List.drop_zero] at h2
      obtain ⟨d, t', rfl⟩ := List.exists_cons_of_ne_nil htne
      have := (List.cons_prefix_cons.mp h2).1
      exact ht (this ▸ List.mem_cons_self d t')
    | succ p' =>
      right
      refine ⟨by simp, ?_⟩
      have h' : OccursAt t ('\n' :: b) (p' + 1) := by simpa using h
      have := occursAt_cons_succ.mp h'
      simpa using this
  | cons c a' ih =>
    intro b p h
    cases p with
    | zero =>
      left
      obtain ⟨h1, h2⟩ := h
      rw [List.drop_zero, List.cons_append] at h2
      have hpre : t <+: c :: a' := by
        have := prefix_drop_nl ht (c :: a') b (by rwa [List.cons_append])
        exact this
      have hlen := List.IsPrefix.length_le hpre
      exact ⟨by simpa using hlen, ⟨by simpa using hlen, by simpa using hpre⟩⟩
    | succ p' =>
      have h' : OccursAt t (a' ++ '\n' :: b) p' := by
        apply occursAt_cons_succ.mp
        simpa [List.cons_append] using h
      rcases ih b p' h' with ⟨hl1, hl2⟩ | ⟨hr1, hr2⟩
      · left
        exact ⟨by simp; omega, occursAt_cons_succ.mpr hl2⟩
      · right
        constructor
        · simp
          omega
        · have heq : p' - a'.length - 1 = p' + 1 - (c :: a').length - 1 := by
            simp
          exact heq ▸ hr2

theorem occursAt_flat_split {t : List Char} (ht : '\n' ∉ t) (htne : t ≠ []) :
    ∀ (ls : List (List Char)) (F : List Char) (p : Nat),
      OccursAt t ((ls.map (fun l => l ++ ['\n'])).flatten ++ F) p →
      (∃ l ∈ ls, ∃ q, OccursAt t l q) ∨ (∃ q, OccursAt t F q) := by
  intro ls
  induction ls with
  | nil =>
    intro F p h
    right
    exact ⟨p, by simpa using h⟩
  | cons l ls ih =>
    intro F p h
    have h' : OccursAt t (l ++ '\n' :: ((ls.map (fun l => l ++ ['\n'])).flatten ++ F)) p := by
      have heq : (((l :: ls).map (fun l => l ++ ['\n'])).flatten ++ F) =
          l ++ '\n' :: ((ls.map (fun l => l ++ ['\n'])).flatten ++ F) := by
        simp [List.append_assoc]
      rwa [heq] at h
    rcases occursAt_split_nl ht htne l _ p h' with ⟨_, hin⟩ | ⟨_, hin⟩
    · exact Or.inl ⟨l, List.mem_cons_self l ls, p, hin⟩
    · rcases ih F _ hin with ⟨l', hl', q, hq⟩ | ⟨q, hq⟩
      · exact Or.inl ⟨l', List.mem_cons_of_mem l hl', q, hq⟩
      · exact Or.inr ⟨q, hq⟩

theorem isPart_of_occursAt {t s : List Char} {p : Nat} (h : OccursAt t s p) :
    t <:+: s := by
  obtain ⟨h1, h2⟩ := h
  exact List.IsInfix.trans (List.IsPrefix.isInfix h2)
    (List.IsSuffix.isInfix (List.drop_suffix p s))

theorem occursAt_of_isPart {t s : List Char} (h : t <:+: s) :
    ∃ p, OccursAt t s p := by
  obtain ⟨u, v, huv⟩ := h
  refine ⟨u.length, ⟨?_, ?_⟩⟩
  · rw [← huv]
    simp
  · rw [← huv, List.append_assoc, List.drop_left]
    exact List.prefix_append t v

theorem occursAtB_false_of_lt {t s : List Char} {q : Nat}
    (h : s.length < q + t.length) : occursAtB t s q = false := by
  have hd : decide (q + t.length ≤ s.length) = false := decide_eq_false (by omega)
  simp [occursAtB, hd]

theorem rfindDown_eq_some_of {t s : List Char} {p : Nat} (i : Nat)
    (hocc : occursAtB t s p = true) (hpi : p ≤ i)
    (hmax : ∀ q, p < q → q ≤ i → occursAtB t s q = false) :
    rfindDown t s i = some p := by
  induction i with
  | zero =>
    have hp0 : p = 0 := by omega
    subst hp0
    unfold rfindDown
    rw [if_pos hocc]
  | succ i ih =>
    unfold rfindDown
    by_cases hq : occursAtB t s (i + 1) = true
    · by_cases hpi1 : p = i + 1
      · rw [if_pos hq, hpi1]
      · exfalso
        have hlt : p < i + 1 := by omega
        have := hmax (i + 1) hlt (le_refl _)
        rw [hq] at this
        exact Bool.noConfusion this
    · rw [if_neg hq]
      apply ih
      · have hne : p ≠ i + 1 := fun he => hq (he ▸ hocc)
        omega
      · exact fun q h1 h2 => hmax q h1 (by omega)

theorem rfindDown_isSome_of {t s : List Char} {p : Nat} (i : Nat)
    (hocc : occursAtB t s p = true) (hpi : p ≤ i) :
    (rfindDown t s i).isSome = true := by
  induction i with
  | zero =>
    have hp0 : p = 0 := by omega
    subst hp0
    unfold rfindDown
    rw [if_pos hocc]
    rfl
  | succ i ih =>
    unfold rfindDown
    by_cases hq : occursAtB t s (i + 1) = true
    · rw [if_pos hq]
      rfl
    · rw [if_neg hq]
      apply ih
      have hne : p ≠ i + 1 := fun he => hq (he ▸ hocc)
      omega

theorem containsSub_of_occursAt {s t : List Char} {p : Nat} (h : OccursAt t s p) :
    containsSub s t = true := by
  unfold containsSub rfindTok
  have hb := occursAtB_eq_true_iff.mpr h
  exact rfindDown_isSome_of s.length hb (occursAtB_le_length hb)

/-- The header line (without its terminating newline) that `maybe_wrap`
emits for each policy. -/
def headerLine (rh : ResultHandling) : List Char :=
  match rh with
  | ResultHandling.None => "fn main() \x7b".toList
  | ResultHandling.Discard => "fn main() \x7b let _ = \x7b".toList
  | ResultHandling.Print => "fn main() \x7b println!(\"\x7b:?\x7d\", \x7b".toList

theorem headerStr_eq (rh : ResultHandling) :
    headerStr rh = headerLine rh ++ ['\n'] := by
  cases rh <;> decide

theorem headerLine_nlFree (rh : ResultHandling) : '\n' ∉ headerLine rh := by
  cases rh <;> decide

theorem headerLine_tok_pref (rh : ResultHandling) :
    "fn main() \x7b".toList <+: headerLine rh := by
  cases rh <;> decide

theorem header_no_late (rh : ResultHandling) :
    ∀ q, 1 ≤ q → occursAtB "fn main() \x7b".toList (headerLine rh) q = false := by
  intro q hq
  by_cases hb : (headerLine rh).length < q + "fn main() \x7b".toList.length
  · exact occursAtB_false_of_lt hb
  · push_neg at hb
    cases rh with
    | None =>
      exfalso
      have h1 : (headerLine ResultHandling.None).length = 11 := by decide
      have h2 : "fn main() \x7b".toList.length = 11 := by decide
      omega
    | Discard =>
      have h1 : (headerLine ResultHandling.Discard).length = 21 := by decide
      have h2 : "fn main() \x7b".toList.length = 11 := by decide
      have hub : q ≤ 10 := by omega
      interval_cases q <;> decide
    | Print =>
      have h1 : (headerLine ResultHandling.Print).length = 30 := by decide
      have h2 : "fn main() \x7b".toList.length = 11 := by decide
      have hub : q ≤ 19 := by omega
      interval_cases q <;> decide

theorem footer_short (rh : ResultHandling) :
    (footerStr rh).length < "fn main() \x7b".toList.length := by
  cases rh <;> decide

theorem footer_decomp (rh : ResultHandling) :
    footerStr rh = (footerStr rh).dropLast ++ ['\x7d'] ∧
      '\n' ∉ (footerStr rh).dropLast := by
  cases rh <;> exact ⟨by decide, by decide⟩

theorem mem_joinNl_isPart {ls : List (List Char)} {l : List Char} (h : l ∈ ls) :
    l <:+: joinNl ls := by
  induction ls with
  | nil => cases h
  | cons x ls ih =>
    rcases List.mem_cons.mp h with rfl | hmem
    · cases ls with
      | nil => exact List.infix_refl l
      | cons y ls' => exact ⟨[], '\n' :: joinNl (y :: ls'), by simp [joinNl]⟩
    · have hsub := ih hmem
      cases ls with
      | nil => cases hmem
      | cons y ls' =>
        obtain ⟨u, v, huv⟩ := hsub
        exact ⟨x ++ '\n' :: u, v, by
          rw [show joinNl (x :: y :: ls') = x ++ '\n' :: joinNl (y :: ls') from rfl,
            ← huv]
          simp⟩

theorem mem_splitNl_isPart {s l : List Char} (h : l ∈ splitNl s) : l <:+: s := by
  have := mem_joinNl_isPart h
  rwa [joinNl_splitNl] at this

theorem mem_splitNl_nlFree {s l : List Char} (h : l ∈ splitNl s) : '\n' ∉ l := by
  induction s generalizing l with
  | nil =>
    simp [splitNl] at h
    simp [h]
  | cons c s ih =>
    by_cases hc : c = '\n'
    · subst hc
      rw [show splitNl ('\n' :: s) = [] :: splitNl s from by simp [splitNl]] at h
      rcases List.mem_cons.mp h with rfl | hmem
      · simp
      · exact ih hmem
    · obtain ⟨p0, ps0, hs⟩ := List.exists_cons_of_ne_nil (splitNl_ne_nil s)
      rw [show splitNl (c :: s) = (c :: p0) :: ps0 from by simp [splitNl, hc, hs]] at h
      rcases List.mem_cons.mp h with rfl | hmem
      · intro hm
        rcases List.mem_cons.mp hm with he | hmem'
        · exact hc he.symm
        · exact ih (hs ▸ List.mem_cons_self p0 ps0) hmem'
      · exact ih (hs ▸ List.mem_cons_of_mem p0 hmem)

theorem mem_rustLines {code l : List Char} (h : l ∈ rustLines code) :
    l <:+: code ∧ '\n' ∉ l := by
  unfold rustLines at h
  obtain ⟨l', hl', rfl⟩ := List.mem_map.mp h
  have hl'' : l' ∈ splitNl code := by
    rcases hm : (splitNl code).getLast? with _ | lx
    · rw [hm] at hl'
      exact hl'
    · rw [hm] at hl'
      cases lx with
      | nil =>
        rw [List.dropLast_eq_take] at hl'
        exact List.take_subset _ _ hl'
      | cons d lx' => exact hl'
  have hpart := mem_splitNl_isPart hl''
  have hnl := mem_splitNl_nlFree hl''
  unfold stripCR
  by_cases hcr : l'.getLast? = some '\r'
  · rw [if_pos hcr]
    constructor
    · exact List.IsInfix.trans (List.IsPrefix.isInfix (List.dropLast_prefix l')) hpart
    · exact fun hm => hnl (List.dropLast_subset l' hm)
  · rw [if_neg hcr]
    exact ⟨hpart, hnl⟩

theorem firstIdxOf_nlFree_append {a : List Char} (ha : '\n' ∉ a) (b : List Char) :
    firstIdxOf '\n' (a ++ '\n' :: b) = some a.length := by
  induction a with
  | nil => simp [firstIdxOf]
  | cons c a' ih =>
    have hc : c ≠ '\n' := fun he => ha (he ▸ List.mem_cons_self c a')
    have ha' : '\n' ∉ a' := fun hm => ha (List.mem_cons_of_mem c hm)
    simp [firstIdxOf, hc, ih ha']

theorem lastIdxOf_append (c : Char) (x y : List Char) :
    lastIdxOf c (x ++ y) =
      match lastIdxOf c y with
      | some i => some (x.length + i)
      | none => lastIdxOf c x := by
  induction x with
  | nil => cases h : lastIdxOf c y <;> simp [h, lastIdxOf]
  | cons d x' ih =>
    rw [List.cons_append,
      show lastIdxOf c (d :: (x' ++ y)) =
        (match lastIdxOf c (x' ++ y) with
          | some i => some (i + 1)
          | none => if d = c then some 0 else none) from rfl,
      ih]
    cases h : lastIdxOf c y with
    | some i =>
      simp only [h]
      rw [show x'.length + i + 1 = (d :: x').length + i by simp; omega]
    | none =>
      simp only [h,
        show lastIdxOf c (d :: x') =
          (match lastIdxOf c x' with
            | some i => some (i + 1)
            | none => if d = c then some 0 else none) from rfl]

theorem lastIdxOf_none_of_nlFree {y : List Char} (h : '\n' ∉ y) :
    lastIdxOf '\n' y = none :=
  (lastIdxOf_eq_none_iff _ _).mpr (List.count_eq_zero.mpr h)

theorem flat_snoc (l0 : List Char) (ls' : List (List Char)) :
    ∃ x, (((l0 :: ls').map (fun l => l ++ ['\n'])).flatten) = x ++ ['\n'] := by
  induction ls' generalizing l0 with
  | nil => exact ⟨l0, by simp⟩
  | cons l1 ls'' ih =>
    obtain ⟨x, hx⟩ := ih l1
    refine ⟨l0 ++ '\n' :: x, ?_⟩
    rw [show ((List.map (fun l => l ++ ['\n']) (l0 :: l1 :: ls'')).flatten) =
        (l0 ++ ['\n']) ++ (List.map (fun l => l ++ ['\n']) (l1 :: ls'')).flatten
        from by simp, hx]
    simp

theorem rfind_wrapped_header (rh : ResultHandling) (A : List Char)
    (ls : List (List Char)) (hnl : ∀ l ∈ ls, '\n' ∉ l)
    (hnotok : ∀ l ∈ ls, ∀ q, ¬ OccursAt "fn main() \x7b".toList l q) :
    rfindTok
      (A ++ (headerLine rh ++ '\n' ::
        ((ls.map (fun l => l ++ ['\n'])).flatten ++ footerStr rh)))
      "fn main() \x7b".toList = some A.length := by
  have htnl : '\n' ∉ "fn main() \x7b".toList := by decide
  have htne : "fn main() \x7b".toList ≠ [] := by decide
  unfold rfindTok
  apply rfindDown_eq_some_of
  · apply occursAtB_eq_true_iff.mpr
    have h0 : OccursAt "fn main() \x7b".toList
        (headerLine rh ++ '\n' ::
          ((ls.map (fun l => l ++ ['\n'])).flatten ++ footerStr rh)) 0 := by
      refine ⟨?_, ?_⟩
      · have hle := List.IsPrefix.length_le (headerLine_tok_pref rh)
        simp at hle ⊢
        omega
      · rw [List.drop_zero]
        exact List.IsPrefix.trans (headerLine_tok_pref rh) (List.prefix_append _ _)
    have := (occursAt_append_shift (t := "fn main() \x7b".toList) (a := A)
      (r := 0)).mpr h0
    simpa using this
  · simp
  · intro q hq hqle
    obtain ⟨r, rfl⟩ : ∃ r, q = A.length + r := ⟨q - A.length, by omega⟩
    have hr1 : 1 ≤ r := by omega
    cases hocc : occursAtB "fn main() \x7b".toList
        (A ++ (headerLine rh ++ '\n' ::
          ((ls.map (fun l => l ++ ['\n'])).flatten ++ footerStr rh)))
        (A.length + r) with
    | false => rfl
    | true =>
      exfalso
      have hOcc := occursAtB_eq_true_iff.mp hocc
      have hR := occursAt_append_shift.mp hOcc
      rcases occursAt_split_nl htnl htne (headerLine rh) _ r hR with
        ⟨_, hin⟩ | ⟨_, hin⟩
      · have := header_no_late rh r hr1
        rw [occursAtB_eq_true_iff.mpr hin] at this
        exact Bool.noConfusion this
      · rcases occursAt_flat_split htnl htne ls (footerStr rh) _ hin with
          ⟨l, hl, q', hq'⟩ | ⟨q', hq'⟩
        · exact hnotok l hl q' hq'
        · have hlen := hq'.1
          have hfs := footer_short rh
          simp at hlen hfs
          omega

theorem truncFront_wrapped (rh : ResultHandling) (A : List Char)
    (ls : List (List Char)) (hnl : ∀ l ∈ ls, '\n' ∉ l)
    (hnotok : ∀ l ∈ ls, ∀ q, ¬ OccursAt "fn main() \x7b".toList l q) :
    truncFront ["fn main() \x7b".toList]
      (A ++ (headerLine rh ++ '\n' ::
        ((ls.map (fun l => l ++ ['\n'])).flatten ++ footerStr rh))) =
      (ls.map (fun l => l ++ ['\n'])).flatten ++ footerStr rh := by
  have hrf := rfind_wrapped_header rh A ls hnl hnotok
  unfold truncFront
  rw [show (["fn main() \x7b".toList].filterMap (fun t => rfindTok
      (A ++ (headerLine rh ++ '\n' ::
        ((ls.map (fun l => l ++ ['\n'])).flatten ++ footerStr rh))) t)) =
      [A.length] by simp only [List.filterMap]; rw [hrf]]
  show dropLineAt _ A.length = _
  unfold dropLineAt
  rw [List.drop_left]
  rw [firstIdxOf_nlFree_append (headerLine_nlFree rh)]
  show (A ++ (headerLine rh ++ '\n' ::
      ((ls.map (fun l => l ++ ['\n'])).flatten ++ footerStr rh))).drop
      ((headerLine rh).length + A.length + 1) =
    (ls.map (fun l => l ++ ['\n'])).flatten ++ footerStr rh
  have hshape : A ++ (headerLine rh ++ '\n' ::
      ((ls.map (fun l => l ++ ['\n'])).flatten ++ footerStr rh)) =
      (A ++ headerLine rh ++ ['\n']) ++
        ((ls.map (fun l => l ++ ['\n'])).flatten ++ footerStr rh) := by
    simp [List.append_assoc]
  rw [hshape]
  rw [show (headerLine rh).length + A.length + 1 =
    (A ++ headerLine rh ++ ['\n']).length by simp; omega]
  rw [List.drop_left]

theorem truncBack_wrapped (rh : ResultHandling) (ls : List (List Char))
    (hnl : ∀ l ∈ ls, '\n' ∉ l) :
    truncBack ["\x7d".toList]
      ((ls.map (fun l => l ++ ['\n'])).flatten ++ footerStr rh) =
      (ls.map (fun l => l ++ ['\n'])).flatten := by
  obtain ⟨hFd, hFnl⟩ := footer_decomp rh
  have hlenF : (footerStr rh).length = (footerStr rh).dropLast.length + 1 := by
    conv_lhs => rw [hFd]
    simp
  have hrf : rfindTok
      ((ls.map (fun l => l ++ ['\n'])).flatten ++ footerStr rh) "\x7d".toList =
      some ((ls.map (fun l => l ++ ['\n'])).flatten.length +
        (footerStr rh).dropLast.length) := by
    unfold rfindTok
    apply rfindDown_eq_some_of
    · apply occursAtB_eq_true_iff.mpr
      have hW : (ls.map (fun l => l ++ ['\n'])).flatten ++ footerStr rh =
          ((ls.map (fun l => l ++ ['\n'])).flatten ++ (footerStr rh).dropLast) ++
            "\x7d".toList := by
        conv_lhs => rw [hFd]
        simp [List.append_assoc]
      rw [hW]
      have h0 : OccursAt "\x7d".toList ("\x7d".toList) 0 :=
        ⟨by decide, by decide⟩
      have := (occursAt_append_shift (t := "\x7d".toList)
        (a := (ls.map (fun l => l ++ ['\n'])).flatten ++ (footerStr rh).dropLast)
        (r := 0)).mpr h0
      simpa using this
    · simp
    · intro q hq hqle
      apply occursAtB_false_of_lt
      rw [List.length_append, hlenF, show ("\x7d".toList).length = 1 from rfl]
      omega
  unfold truncBack
  rw [show (["\x7d".toList].filterMap (fun t => rfindTok
      ((ls.map (fun l => l ++ ['\n'])).flatten ++ footerStr rh) t)) =
      [(ls.map (fun l => l ++ ['\n'])).flatten.length +
        (footerStr rh).dropLast.length] by simp only [List.filterMap]; rw [hrf]]
  show takeBeforeLineAt _ _ = _
  unfold takeBeforeLineAt
  have htake : ((ls.map (fun l => l ++ ['\n'])).flatten ++ footerStr rh).take
      ((ls.map (fun l => l ++ ['\n'])).flatten.length +
        (footerStr rh).dropLast.length) =
      (ls.map (fun l => l ++ ['\n'])).flatten ++ (footerStr rh).dropLast := by
    rw [List.take_append]
    congr 1
    cases rh <;> decide
  rw [htake]
  rw [lastIdxOf_append, lastIdxOf_none_of_nlFree hFnl]
  cases ls with
  | nil => rfl
  | cons l0 ls' =>
    obtain ⟨x, hx⟩ := flat_snoc l0 ls'
    rw [hx, lastIdxOf_append]
    rw [show lastIdxOf '\n' ['\n'] = some 0 from rfl]
    show ((x ++ ['\n']) ++ footerStr rh).take (x.length + 0 + 1) = x ++ ['\n']
    rw [show x.length + 0 + 1 = (x ++ ['\n']).length by simp]
    rw [List.take_left]

/-- Remove the trailing run of empty lines from a line list. -/
def dropTrailingEmpty (ls : List (List Char)) : List (List Char) :=
  (ls.reverse.dropWhile List.isEmpty).reverse

/-- The four-space unindent applied per line by
`strip_fn_main_boilerplate_from_formatted`. -/
def unindent4 (l : List Char) : List Char :=
  if "    ".toList.isPrefixOf l then l.drop 4 else l

theorem dte_snoc_nil (ls : List (List Char)) :
    dropTrailingEmpty (ls ++ [[]]) = dropTrailingEmpty ls := by
  unfold dropTrailingEmpty
  rw [List.reverse_append]
  rfl

theorem dte_snoc_ne {l : List Char} (hl : l ≠ []) (ls : List (List Char)) :
    dropTrailingEmpty (ls ++ [l]) = ls ++ [l] := by
  unfold dropTrailingEmpty
  rw [List.reverse_append]
  have hemp : l.isEmpty = false := by
    cases l with
    | nil => exact absurd rfl hl
    | cons c l' => rfl
  simp [List.dropWhile_cons, hemp]

theorem dte_subset {ls : List (List Char)} {l : List Char}
    (h : l ∈ dropTrailingEmpty ls) : l ∈ ls := by
  unfold dropTrailingEmpty at h
  rw [List.mem_reverse] at h
  have := List.Sublist.mem h (List.dropWhile_sublist _)
  rwa [List.mem_reverse] at this

theorem dropWhile_head_false {p : List Char → Bool} {l : List (List Char)}
    {x : List Char} {xs : List (List Char)} (h : l.dropWhile p = x :: xs) :
    p x = false := by
  induction l with
  | nil => simp at h
  | cons y l ih =>
    rw [List.dropWhile_cons] at h
    by_cases hy : p y = true
    · rw [if_pos hy] at h
      exact ih h
    · rw [if_neg hy] at h
      injection h with h1 _
      rw [← h1]
      cases hpy : p y with
      | false => rfl
      | true => exact absurd hpy hy

theorem dropWhile_flat (ls : List (List Char))
    (hhead : ∀ l0 ls', ls = l0 :: ls' → l0 ≠ [])
    (hnl : ∀ l ∈ ls, '\n' ∉ l) :
    ((ls.map (fun l => l ++ ['\n'])).flatten).dropWhile (· = '\n') =
      (ls.map (fun l => l ++ ['\n'])).flatten := by
  cases ls with
  | nil => rfl
  | cons l0 ls' =>
    obtain ⟨c, l0', rfl⟩ := List.exists_cons_of_ne_nil (hhead l0 ls' rfl)
    have hc : c ≠ '\n' :=
      fun he => hnl _ (List.mem_cons_self _ _) (he ▸ List.mem_cons_self c l0')
    have hshape : (((c :: l0') :: ls').map (fun l => l ++ ['\n'])).flatten =
        c :: (l0' ++ '\n' :: (ls'.map (fun l => l ++ ['\n'])).flatten) := by
      simp
    rw [hshape, List.dropWhile_cons]
    simp [hc]

theorem collapse_eq_of_not_double {s : List Char}
    (h : ¬ (['\n', '\n'].isSuffixOf s = true)) :
    collapseTrailingBlank s = s := by
  unfold collapseTrailingBlank
  cases hl : s.length with
  | zero => rfl
  | succ n =>
    unfold collapseGo
    rw [if_neg h]

theorem collapse_append_nl {x : List Char} :
    collapseTrailingBlank ((x ++ ['\n']) ++ ['\n']) =
      collapseTrailingBlank (x ++ ['\n']) := by
  unfold collapseTrailingBlank
  have hsfx : ['\n', '\n'].isSuffixOf ((x ++ ['\n']) ++ ['\n']) = true := by
    rw [List.isSuffixOf_iff_suffix]
    exact ⟨x, by simp⟩
  rw [show ((x ++ ['\n']) ++ ['\n']).length = (x ++ ['\n']).length + 1 by simp]
  rw [show collapseGo ((x ++ ['\n']).length + 1) ((x ++ ['\n']) ++ ['\n']) =
    if ['\n', '\n'].isSuffixOf ((x ++ ['\n']) ++ ['\n']) then
      collapseGo (x ++ ['\n']).length ((x ++ ['\n']) ++ ['\n']).dropLast
    else (x ++ ['\n']) ++ ['\n'] from rfl]
  rw [if_pos hsfx, List.dropLast_concat]

theorem not_double_of_line {x l : List Char} (hl : l ≠ []) (hnl : '\n' ∉ l) :
    ¬ (['\n', '\n'].isSuffixOf (x ++ (l ++ ['\n'])) = true) := by
  intro h
  obtain ⟨t, ht⟩ := List.isSuffixOf_iff_suffix.mp h
  have ht' : (t ++ ['\n']) ++ ['\n'] = (x ++ l) ++ ['\n'] := by
    simp only [List.append_assoc, List.singleton_append]
    exact ht
  have h2 : t ++ ['\n'] = x ++ l := (List.append_inj' ht' rfl).1
  have hg1 : (t ++ ['\n']).getLast? = some '\n' := List.getLast?_concat t
  have hg2 : (x ++ l).getLast? = l.getLast? := List.getLast?_append_of_ne_nil x hl
  rw [h2, hg2] at hg1
  exact hnl (List.mem_of_mem_getLast? (by rw [hg1]; exact rfl))

theorem collapse_flat (ls : List (List Char)) (hnl : ∀ l ∈ ls, '\n' ∉ l)
    (hhead : ∀ l0 ls', ls = l0 :: ls' → l0 ≠ []) :
    collapseTrailingBlank ((ls.map (fun l => l ++ ['\n'])).flatten) =
      ((dropTrailingEmpty ls).map (fun l => l ++ ['\n'])).flatten := by
  induction ls using List.reverseRecOn with
  | nil => rfl
  | append_singleton ls l ih =>
    by_cases hl : l = []
    · subst hl
      rw [dte_snoc_nil]
      have hflat : (((ls ++ [[]]).map (fun l => l ++ ['\n'])).flatten) =
          (ls.map (fun l => l ++ ['\n'])).flatten ++ ['\n'] := by simp
      rw [hflat]
      cases hls : ls with
      | nil =>
        exfalso
        exact hhead [] [] (by rw [hls]; rfl) rfl
      | cons l0 ls' =>
        rw [← hls]
        have hsnoc : ∃ x, (ls.map (fun l => l ++ ['\n'])).flatten = x ++ ['\n'] := by
          rw [hls]
          exact flat_snoc l0 ls'
        obtain ⟨x, hx⟩ := hsnoc
        rw [hx, collapse_append_nl, ← hx]
        apply ih
        · exact fun l hm => hnl l (List.mem_append_left _ hm)
        · intro l0' ls'' he
          apply hhead l0' (ls'' ++ [[]])
          rw [he]
          rfl
    · rw [dte_snoc_ne hl]
      apply collapse_eq_of_not_double
      have hflat : (((ls ++ [l]).map (fun l => l ++ ['\n'])).flatten) =
          (ls.map (fun l => l ++ ['\n'])).flatten ++ (l ++ ['\n']) := by simp
      rw [hflat]
      exact not_double_of_line hl (hnl l (List.mem_append_right _ (List.mem_cons_self l [])))

theorem splitNl_line_append {l : List Char} (hnl : '\n' ∉ l) (y : List Char) :
    splitNl (l ++ '\n' :: y) = l :: splitNl y := by
  induction l with
  | nil => simp [splitNl]
  | cons c l' ih =>
    have hc : c ≠ '\n' := fun he => hnl (he ▸ List.mem_cons_self c l')
    have hnl' : '\n' ∉ l' := fun hm => hnl (List.mem_cons_of_mem c hm)
    rw [List.cons_append]
    simp [splitNl, hc, ih hnl']

theorem splitNl_flat {ls : List (List Char)} (hnl : ∀ l ∈ ls, '\n' ∉ l) :
    splitNl ((ls.map (fun l => l ++ ['\n'])).flatten) = ls ++ [[]] := by
  induction ls with
  | nil => rfl
  | cons l ls ih =>
    have hshape : (((l :: ls).map (fun l => l ++ ['\n'])).flatten) =
        l ++ '\n' :: (ls.map (fun l => l ++ ['\n'])).flatten := by
      simp
    rw [hshape, splitNl_line_append (hnl l (List.mem_cons_self l ls)),
      ih (fun l' hm => hnl l' (List.mem_cons_of_mem l hm))]
    rfl

theorem rustLines_flat {ls : List (List Char)} (hnl : ∀ l ∈ ls, '\n' ∉ l) :
    rustLines ((ls.map (fun l => l ++ ['\n'])).flatten) = ls.map stripCR := by
  unfold rustLines
  rw [splitNl_flat hnl, List.getLast?_concat]
  simp [List.dropLast_concat]

/-- C5 counterexample: a body with a trailing blank line.  The wrap-then-
strip round trip returns a single line, while the original body (after the
hoisted leading run) has two lines, so the composition does not recover the
original body lines - no amount of reindentation changes a line count. -/
theorem wrap_strip_roundtrip_cx :
    containsSub "x\n\n".toList "fn main".toList = false ∧
    (rustLines "x\n\n".toList).dropWhile leadOk = ["x".toList, []] ∧
    strip_fn_main_boilerplate_from_formatted
        ((maybe_wrap "x\n\n".toList ResultHandling.Discard).1) = "x\n".toList ∧
    (rustLines (strip_fn_main_boilerplate_from_formatted
        ((maybe_wrap "x\n\n".toList ResultHandling.Discard).1))).length = 1 := by
  decide

/-- C5 as amended: for code without the entry-point marker and any policy,
wrapping and then stripping recovers exactly the body lines after the
hoisted leading attribute-or-blank run, minus any trailing run of empty
lines, each line further stripped of one trailing carriage return and of
one leading four-space indent, and rejoined with one newline per line. -/
theorem wrap_strip_roundtrip (code : List Char) (rh : ResultHandling)
    (h : containsSub code "fn main".toList = false) :
    strip_fn_main_boilerplate_from_formatted ((maybe_wrap code rh).1) =
      ((dropTrailingEmpty ((rustLines code).dropWhile leadOk)).map
          (fun l => unindent4 (stripCR l) ++ ['\n'])).flatten := by
  have hwrap : (maybe_wrap code rh).1 =
      ((((rustLines code).takeWhile leadOk).filterMap attrOf).map
          (fun l => l ++ ['\n'])).flatten ++
        (headerLine rh ++ '\n' ::
          ((((rustLines code).dropWhile leadOk).map (fun l => l ++ ['\n'])).flatten ++
            footerStr rh)) := by
    unfold maybe_wrap
    rw [h, collectAttrs_eq, headerStr_eq]
    simp [List.append_assoc]
  have hrestfacts : ∀ l ∈ (rustLines code).dropWhile leadOk, l <:+: code ∧ '\n' ∉ l :=
    fun l hm => mem_rustLines (List.Sublist.mem hm (List.dropWhile_sublist _))
  have hnl : ∀ l ∈ (rustLines code).dropWhile leadOk, '\n' ∉ l :=
    fun l hm => (hrestfacts l hm).2
  have hnotok : ∀ l ∈ (rustLines code).dropWhile leadOk, ∀ q,
      ¬ OccursAt "fn main() \x7b".toList l q := by
    intro l hm q hq
    have h1 : "fn main".toList <:+: "fn main() \x7b".toList :=
      ⟨[], "() \x7b".toList, by decide⟩
    have h2 : "fn main".toList <:+: l := List.IsInfix.trans h1 (isPart_of_occursAt hq)
    have h3 : "fn main".toList <:+: code := List.IsInfix.trans h2 (hrestfacts l hm).1
    obtain ⟨p, hp⟩ := occursAt_of_isPart h3
    rw [containsSub_of_occursAt hp] at h
    exact Bool.noConfusion h
  have hhead : ∀ l0 ls', (rustLines code).dropWhile leadOk = l0 :: ls' → l0 ≠ [] := by
    intro l0 ls' he hnil
    have hfalse := dropWhile_head_false he
    rw [hnil] at hfalse
    have hleadnil : leadOk ([] : List Char) = true := by decide
    rw [hleadnil] at hfalse
    exact Bool.noConfusion hfalse
  have hstep1 := truncFront_wrapped rh
    (((((rustLines code).takeWhile leadOk).filterMap attrOf).map
      (fun l => l ++ ['\n'])).flatten)
    ((rustLines code).dropWhile leadOk) hnl hnotok
  have hstep2 := truncBack_wrapped rh ((rustLines code).dropWhile leadOk) hnl
  have hdrop := dropWhile_flat ((rustLines code).dropWhile leadOk) hhead hnl
  have hcoll := collapse_flat ((rustLines code).dropWhile leadOk) hnl hhead
  have hdte_nl : ∀ l ∈ dropTrailingEmpty ((rustLines code).dropWhile leadOk),
      '\n' ∉ l := fun l hm => hnl l (dte_subset hm)
  unfold strip_fn_main_boilerplate_from_formatted
  rw [hwrap]
  have hext : extract_relevant_lines
      (((((rustLines code).takeWhile leadOk).filterMap attrOf).map
          (fun l => l ++ ['\n'])).flatten ++
        (headerLine rh ++ '\n' ::
          ((((rustLines code).dropWhile leadOk).map (fun l => l ++ ['\n'])).flatten ++
            footerStr rh)))
      ["fn main() \x7b".toList] ["\x7d".toList] =
      ((dropTrailingEmpty ((rustLines code).dropWhile leadOk)).map
        (fun l => l ++ ['\n'])).flatten := by
    unfold extract_relevant_lines
    rw [hstep1, hstep2, hdrop, hcoll]
  rw [hext, rustLines_flat hdte_nl, List.map_map]
  rfl

/-- Witness for C5's amended round trip at a concrete input. -/
theorem wrap_strip_roundtrip_witness :
    strip_fn_main_boilerplate_from_formatted
        ((maybe_wrap "#![a]\nuse x;\n1 + 1".toList ResultHandling.Discard).1) =
      ((dropTrailingEmpty
          ((rustLines "#![a]\nuse x;\n1 + 1".toList).dropWhile leadOk)).map
        (fun l => unindent4 (stripCR l) ++ ['\n'])).flatten :=
  wrap_strip_roundtrip "#![a]\nuse x;\n1 + 1".toList ResultHandling.Discard (by decide)
